import Mathlib

/-!
Shallow embedding of the utility functions of the web-dev-handbook
repository, together with proofs of their specified properties.

Embedded functions (from the JavaScript sources):
  * `curry`                (src/unnamed/part_000, lines 61-71)
  * `debounce`             (src/javascript/debouncing_throttling/implementation.js, lines 2-12)
  * `throttle`             (same file, lines 26-39)
  * `debounceWithCancel`   (same file, lines 234-250)
  * `memoize`              (src/unnamed/part_005, lines 250-264)
  * `once`                 (src/unnamed/part_005, lines 226-238)

Modelling conventions: a variadic JavaScript function of arity `n` is a
Lean function `List α → β` applied to its accumulated argument list;
time is `Nat` milliseconds; `setTimeout`/`clearTimeout` state is an
`Option` holding the scheduled fire time (and captured arguments), and a
run function processes a time-ordered list of events, firing a due timer
before each event and flushing any still-pending timer at the end.
-/

namespace WebDevHandbook

/-! ## curry (src/unnamed/part_000)

```js
function curry(fn) {
  return function curried(...args) {
    if (args.length >= fn.length) {
      return fn.apply(this, args);
    } else {
      return function(...nextArgs) {
        return curried.apply(this, args.concat(nextArgs));
      };
    }
  };
}
```

One call of the curried function with the arguments accumulated so far
(`acc`, the `args` closed over) extended by the new call's arguments
either applies `fn` (when the accumulated count reaches the arity `n`,
i.e. `fn.length`) or returns a new function closing over the larger
accumulation. -/

/-- Outcome of one call of the curried function: either `fn` was applied
and a value is returned, or a function closing over the accumulated
arguments is returned (and `fn` is not invoked). -/
inductive CurryResult (α β : Type) where
  | more (acc : List α) : CurryResult α β
  | done (value : β) : CurryResult α β
  deriving DecidableEq, Repr

/-- One call of `curried` with previously accumulated arguments `acc`
and the new call's arguments `call`: the body of `curried` with
`args := acc ++ call` and `fn.length := n`. -/
def curriedStep (n : Nat) (fn : List α → β) (acc call : List α) : CurryResult α β :=
  if n ≤ (acc ++ call).length then
    CurryResult.done (fn (acc ++ call))
  else
    CurryResult.more (acc ++ call)

/-- Iterating the curried function over successive calls, starting from
accumulated arguments `acc`: `some v` when one of the calls applied `fn`
(later calls cannot happen, a value is not callable), `none` when after
all calls the result is still a function. -/
def curriedRun (n : Nat) (fn : List α → β) : List α → List (List α) → Option β
  | _, [] => none
  | acc, c :: rest =>
    match curriedStep n fn acc c with
    | CurryResult.done v => some v
    | CurryResult.more acc2 => curriedRun n fn acc2 rest

/-- Number of times `fn` is invoked over a sequence of calls of the
curried function (an invocation happens exactly when a step is `done`,
after which no further call can occur). -/
def curryInvocations (n : Nat) (fn : List α → β) : List α → List (List α) → Nat
  | _, [] => 0
  | acc, c :: rest =>
    match curriedStep n fn acc c with
    | CurryResult.done _ => 1
    | CurryResult.more acc2 => curryInvocations n fn acc2 rest

lemma curriedStep_done (n : Nat) (fn : List α → β) (acc call : List α)
    (h : n ≤ (acc ++ call).length) :
    curriedStep n fn acc call = CurryResult.done (fn (acc ++ call)) := by
  unfold curriedStep
  rw [if_pos h]

lemma curriedStep_more (n : Nat) (fn : List α → β) (acc call : List α)
    (h : (acc ++ call).length < n) :
    curriedStep n fn acc call = CurryResult.more (acc ++ call) := by
  unfold curriedStep
  rw [if_neg (Nat.not_le.mpr h)]

lemma curriedRun_cons (n : Nat) (fn : List α → β) (acc c : List α)
    (rest : List (List α)) :
    curriedRun n fn acc (c :: rest) =
      match curriedStep n fn acc c with
      | CurryResult.done v => some v
      | CurryResult.more acc2 => curriedRun n fn acc2 rest := rfl

lemma curryInvocations_cons (n : Nat) (fn : List α → β) (acc c : List α)
    (rest : List (List α)) :
    curryInvocations n fn acc (c :: rest) =
      match curriedStep n fn acc c with
      | CurryResult.done _ => 1
      | CurryResult.more acc2 => curryInvocations n fn acc2 rest := rfl

/-- If every call passes at least one argument and the accumulated and
remaining arguments together number exactly `n`, the run applies `fn`
to all of them in order. -/
lemma curriedRun_go (n : Nat) (fn : List α → β) :
    ∀ (calls : List (List α)) (acc : List α), calls ≠ [] →
      (∀ c ∈ calls, c ≠ []) →
      acc.length + calls.flatten.length = n →
      curriedRun n fn acc calls = some (fn (acc ++ calls.flatten)) := by
  intro calls
  induction calls with
  | nil => intro _ h; exact absurd rfl h
  | cons c rest ih =>
    intro acc _ hne hlen
    cases rest with
    | nil =>
      simp only [List.flatten_cons, List.flatten_nil, List.append_nil] at hlen ⊢
      have hstep : curriedStep n fn acc c = CurryResult.done (fn (acc ++ c)) := by
        apply curriedStep_done
        simp only [List.length_append]
        omega
      rw [curriedRun_cons, hstep]
    | cons c2 rest2 =>
      have hc2 : c2 ≠ [] := hne c2 (by simp)
      have hc2len : 1 ≤ c2.length := by
        cases c2 with
        | nil => exact absurd rfl hc2
        | cons _ _ => simp
      have hlt : (acc ++ c).length < n := by
        simp only [List.flatten_cons, List.length_append] at hlen ⊢
        omega
      have hstep := curriedStep_more n fn acc c hlt
      have hrec := ih (acc ++ c) (by simp)
        (fun d hd => hne d (List.mem_cons_of_mem c hd))
        (by simp only [List.flatten_cons, List.length_append] at hlen ⊢; omega)
      rw [curriedRun_cons, hstep]
      show curriedRun n fn (acc ++ c) (c2 :: rest2) = _
      rw [hrec]
      simp [List.append_assoc]

/-- If the accumulated and remaining arguments together reach the arity,
`fn` is invoked exactly once over the remaining calls. -/
lemma curryInvocations_go (n : Nat) (fn : List α → β) :
    ∀ (calls : List (List α)) (acc : List α), calls ≠ [] →
      n ≤ acc.length + calls.flatten.length →
      curryInvocations n fn acc calls = 1 := by
  intro calls
  induction calls with
  | nil => intro _ h; exact absurd rfl h
  | cons c rest ih =>
    intro acc _ hlen
    by_cases hdone : n ≤ (acc ++ c).length
    · rw [curryInvocations_cons, curriedStep_done n fn acc c hdone]
    · have hlt : (acc ++ c).length < n := Nat.not_le.mp hdone
      cases rest with
      | nil =>
        simp only [List.flatten_cons, List.flatten_nil, List.append_nil] at hlen
        simp only [List.length_append] at hlt
        omega
      | cons c2 rest2 =>
        have hrec := ih (acc ++ c) (by simp)
          (by simp only [List.flatten_cons, List.length_append] at hlen ⊢; omega)
        rw [curryInvocations_cons, curriedStep_more n fn acc c hlt]
        show curryInvocations n fn (acc ++ c) (c2 :: rest2) = 1
        exact hrec

/-- C1: for every function `fn` of arity `n` with `1 ≤ n ≤ 6`, and every
way of splitting a list of `n` arguments across successive calls (each
call passing at least one argument), `curry(fn)` applied to those calls
produces the same result as calling `fn` directly with all `n` arguments
in the same order. -/
theorem curry_split_correct (n : Nat) (fn : List α → β) (calls : List (List α))
    (h1 : 1 ≤ n) (h6 : n ≤ 6)
    (hne : ∀ c ∈ calls, c ≠ [])
    (hlen : calls.flatten.length = n) :
    curriedRun n fn [] calls = some (fn calls.flatten) := by
  have hcalls : calls ≠ [] := by
    intro h
    rw [h] at hlen
    simp at hlen
    omega
  have := curriedRun_go n fn calls [] hcalls hne (by simpa using hlen)
  simpa using this

/-- C1 witness: arity 3, the repository's own example split `(1,2)(3)`
of `sum(a,b,c) = a+b+c`. -/
theorem curry_split_correct_witness :
    curriedRun 3 (fun l : List Nat => l.sum) [] [[1, 2], [3]] =
      some ((fun l : List Nat => l.sum) [[1, 2], [3]].flatten) :=
  curry_split_correct 3 (fun l : List Nat => l.sum) [[1, 2], [3]]
    (by decide) (by decide) (by decide) (by decide)

/-- C5: `curry(fn)` accumulates arguments by arity: every call whose
total accumulated argument count is still below `n` returns a function
without invoking `fn`; any call where the count reaches `n` applies `fn`
to all accumulated arguments; and over a sequence of calls jointly
supplying at least `n` arguments, `fn` is invoked exactly once. -/
theorem curry_arity_accumulation (n : Nat) (fn : List α → β) (calls : List (List α))
    (hcalls : calls ≠ []) (htotal : n ≤ calls.flatten.length) :
    (∀ acc call : List α, (acc ++ call).length < n →
        curriedStep n fn acc call = CurryResult.more (acc ++ call)) ∧
    (∀ acc call : List α, n ≤ (acc ++ call).length →
        curriedStep n fn acc call = CurryResult.done (fn (acc ++ call))) ∧
    curryInvocations n fn [] calls = 1 := by
  refine ⟨fun acc call h => curriedStep_more n fn acc call h,
    fun acc call h => curriedStep_done n fn acc call h, ?_⟩
  exact curryInvocations_go n fn calls [] hcalls (by simpa using htotal)

/-- C5 witness: arity 3, calls `(1)(2)(3)`: the first two calls return
functions and `fn` is invoked exactly once. -/
theorem curry_arity_accumulation_witness :
    ([[1], [2], [3]] : List (List Nat)) ≠ [] ∧
    3 ≤ ([[1], [2], [3]] : List (List Nat)).flatten.length ∧
    curryInvocations 3 (fun l : List Nat => l.sum) [] [[1], [2], [3]] = 1 :=
  ⟨by decide, by decide,
    (curry_arity_accumulation 3 (fun l : List Nat => l.sum) [[1], [2], [3]]
      (by decide) (by decide)).2.2⟩

/-! ## debounce (src/javascript/debouncing_throttling/implementation.js)

```js
function debounce(func, delay) {
  let timeoutId;
  return function(...args) {
    clearTimeout(timeoutId);
    timeoutId = setTimeout(() => { func.apply(this, args); }, delay);
  };
}
```

The closure state is the single `timeoutId`: at most one scheduled
execution, modelled as `Option (Nat × α)` holding the fire time and the
captured arguments. A run processes invocations `(t, args)` in time
order: a pending timer due at or before the current event time fires
first (executing `func`), then the invocation clears any pending timer
and schedules a fresh one `delay` ms later; a timer still pending after
the last event fires once time passes. -/

/-- The body of the debounced function called at time `t` with `args`:
`clearTimeout` of whatever was pending, then `setTimeout(..., delay)`,
leaving exactly one scheduled execution at `t + delay`. -/
def debounceInvoke (delay : Nat) (_s : Option (Nat × α)) (t : Nat) (args : α) :
    Option (Nat × α) :=
  some (t + delay, args)

/-- Executions of `func` (fire time, arguments) produced by the
debounced function over a time-ordered list of invocations, starting
from timer state `s`. -/
def debounceRun (delay : Nat) : Option (Nat × α) → List (Nat × α) → List (Nat × α)
  | some p, [] => [p]
  | none, [] => []
  | some p, (t, a) :: rest =>
    if p.1 ≤ t then p :: debounceRun delay (debounceInvoke delay none t a) rest
    else debounceRun delay (debounceInvoke delay (some p) t a) rest
  | none, (t, a) :: rest => debounceRun delay (debounceInvoke delay none t a) rest

lemma debounceRun_nil_some (delay : Nat) (p : Nat × α) :
    debounceRun delay (some p) [] = [p] := rfl

lemma debounceRun_cons_none (delay t : Nat) (a : α) (rest : List (Nat × α)) :
    debounceRun delay none ((t, a) :: rest) =
      debounceRun delay (some (t + delay, a)) rest := rfl

lemma debounceRun_cons_pending (delay : Nat) (p : Nat × α) (t : Nat) (a : α)
    (rest : List (Nat × α)) (h : t < p.1) :
    debounceRun delay (some p) ((t, a) :: rest) =
      debounceRun delay (some (t + delay, a)) rest := by
  show (if p.1 ≤ t then _ else _) = _
  rw [if_neg (Nat.not_le.mpr h)]
  rfl

/-- A pending timer that a new invocation arrives before never fires:
the run behaves as if nothing had been pending. -/
lemma debounceRun_cancelled (delay : Nat) (p : Nat × α) (t : Nat) (a : α)
    (rest : List (Nat × α)) (h : t < p.1) :
    debounceRun delay (some p) ((t, a) :: rest) =
      debounceRun delay none ((t, a) :: rest) := by
  rw [debounceRun_cons_pending delay p t a rest h, debounceRun_cons_none]

/-- Over invocations all lying within `delay` ms of the first one, the
debounce run executes `func` exactly once, at `delay` ms after the last
invocation and with its arguments. -/
lemma debounceRun_window (delay : Nat) :
    ∀ (rest : List (Nat × α)) (t0 : Nat) (a0 : α),
      List.Chain' (fun p q : Nat × α => p.1 ≤ q.1) ((t0, a0) :: rest) →
      (∀ p ∈ rest, p.1 < t0 + delay) →
      debounceRun delay none ((t0, a0) :: rest) =
        [((((t0, a0) :: rest).getLast (List.cons_ne_nil _ _)).1 + delay,
          (((t0, a0) :: rest).getLast (List.cons_ne_nil _ _)).2)] := by
  intro rest
  induction rest with
  | nil =>
    intro t0 a0 _ _
    rw [debounceRun_cons_none, debounceRun_nil_some]
    simp
  | cons q rest2 ih =>
    intro t0 a0 hchain hwin
    obtain ⟨t1, a1⟩ := q
    have ht01 : t0 ≤ t1 := (List.chain'_cons.mp hchain).1
    have ht1win : t1 < t0 + delay := hwin (t1, a1) (by simp)
    rw [debounceRun_cons_none,
      debounceRun_cancelled delay (t0 + delay, a0) t1 a1 rest2 ht1win,
      ih t1 a1 (List.chain'_cons.mp hchain).2
        (fun p hp => lt_of_lt_of_le (hwin p (List.mem_cons_of_mem _ hp))
          (by omega))]
    simp [List.getLast_cons]

/-- C2: if the debounced function is invoked one or more times, in time
order, with every invocation falling within a window shorter than
`delay` ms (every later invocation strictly before `t0 + delay`), then
`func` executes exactly once, with the arguments of the last invocation
(at `delay` ms after it). -/
theorem debounce_single_execution (delay t0 : Nat) (a0 : α) (rest : List (Nat × α))
    (hchain : List.Chain' (fun p q : Nat × α => p.1 ≤ q.1) ((t0, a0) :: rest))
    (hwin : ∀ p ∈ rest, p.1 < t0 + delay) :
    debounceRun delay none ((t0, a0) :: rest) =
      [((((t0, a0) :: rest).getLast (List.cons_ne_nil _ _)).1 + delay,
        (((t0, a0) :: rest).getLast (List.cons_ne_nil _ _)).2)] :=
  debounceRun_window delay rest t0 a0 hchain hwin

/-- C2 witness: three invocations at 0, 2, 4 ms with `delay = 10`:
exactly one execution, at 14 ms, with the last invocation's argument. -/
theorem debounce_single_execution_witness :
    debounceRun 10 none [(0, 7), (2, 8), (4, (9 : Nat))] = [(14, 9)] := by
  have h := debounce_single_execution 10 0 (7 : Nat) [(2, 8), (4, 9)]
    (by simp) (by decide)
  simpa using h

/-- C6: the timer-reset pattern of `debounce`: every invocation replaces
whatever was pending by a fresh execution scheduled `delay` ms later
(the single `timeoutId` holds at most one pending execution), and a
pending execution that a new invocation arrives before never runs — the
run is identical to one in which nothing was pending. -/
theorem debounce_timer_reset (delay tf t : Nat) (a args : α)
    (rest : List (Nat × α)) (h : t < tf) :
    (∀ s : Option (Nat × α), debounceInvoke delay s t args = some (t + delay, args)) ∧
    debounceRun delay (some (tf, a)) ((t, args) :: rest) =
      debounceRun delay none ((t, args) :: rest) :=
  ⟨fun _ => rfl, debounceRun_cancelled delay (tf, a) t args rest h⟩

/-- C6 witness: a pending execution at 5 ms cancelled by an invocation
at 3 ms with `delay = 10`. -/
theorem debounce_timer_reset_witness :
    debounceRun 10 (some (5, 1)) [(3, (2 : Nat))] =
      debounceRun 10 none [(3, (2 : Nat))] :=
  (debounce_timer_reset 10 5 3 (1 : Nat) 2 [] (by decide)).2

/-! ## throttle (src/javascript/debouncing_throttling/implementation.js)

```js
function throttle(func, limit) {
  let inThrottle;
  return function(...args) {
    if (!inThrottle) {
      func.apply(this, args);
      inThrottle = true;
      setTimeout(() => { inThrottle = false; }, limit);
    }
  };
}
```

The closure state is the cooldown flag together with its scheduled
reset, modelled as `Option Nat` holding the time at which `inThrottle`
goes back to `false` (`none` = flag clear). An invocation at time `t`
first lets a reset due at or before `t` take effect; with the flag
clear, `func` executes immediately with the invocation's arguments and
the flag is set until `t + limit`; with the flag set, the invocation is
dropped. -/

/-- Executions of `func` (time, arguments) produced by the throttled
function over a time-ordered list of invocations, starting from
cooldown state `c` (the pending reset time of `inThrottle`). -/
def throttleRun (limit : Nat) : Option Nat → List (Nat × α) → List (Nat × α)
  | _, [] => []
  | some r, (t, a) :: rest =>
    if r ≤ t then (t, a) :: throttleRun limit (some (t + limit)) rest
    else throttleRun limit (some r) rest
  | none, (t, a) :: rest => (t, a) :: throttleRun limit (some (t + limit)) rest

lemma throttleRun_cons_none (limit t : Nat) (a : α) (rest : List (Nat × α)) :
    throttleRun limit none ((t, a) :: rest) =
      (t, a) :: throttleRun limit (some (t + limit)) rest := rfl

lemma throttleRun_cons_clear (limit r t : Nat) (a : α) (rest : List (Nat × α))
    (h : r ≤ t) :
    throttleRun limit (some r) ((t, a) :: rest) =
      (t, a) :: throttleRun limit (some (t + limit)) rest := by
  show (if r ≤ t then _ else _) = _
  rw [if_pos h]

lemma throttleRun_cons_cooldown (limit r t : Nat) (a : α) (rest : List (Nat × α))
    (h : t < r) :
    throttleRun limit (some r) ((t, a) :: rest) =
      throttleRun limit (some r) rest := by
  show (if r ≤ t then _ else _) = _
  rw [if_neg (Nat.not_le.mpr h)]

/-- Counting bound: starting from a cooldown that resets at `r < hi + limit`,
with every invocation before `hi`, each execution consumes `limit` ms of
the window `[r, hi)`. -/
lemma throttleRun_len (limit hi : Nat) :
    ∀ (events : List (Nat × α)) (r : Nat), r < hi + limit →
      (∀ p ∈ events, p.1 < hi) →
      r + (throttleRun limit (some r) events).length * limit < hi + limit := by
  intro events
  induction events with
  | nil =>
    intro r hr _
    simpa [throttleRun] using hr
  | cons q rest ih =>
    intro r hr hlt
    obtain ⟨t, a⟩ := q
    have ht : t < hi := hlt (t, a) (by simp)
    by_cases hdue : r ≤ t
    · rw [throttleRun_cons_clear limit r t a rest hdue]
      have := ih (t + limit) (by omega) (fun p hp => hlt p (List.mem_cons_of_mem _ hp))
      simp only [List.length_cons, Nat.add_mul, Nat.one_mul] at this ⊢
      omega
    · rw [throttleRun_cons_cooldown limit r t a rest (Nat.not_le.mp hdue)]
      exact ih r hr (fun p hp => hlt p (List.mem_cons_of_mem _ hp))

/-- C3: if the throttled function is invoked (any number of times, in
any pattern) with every invocation falling in the half-open window
`[start, start + T)` of duration `T` ms, and `limit ≥ 1`, then `func`
executes at most `⌈T / limit⌉` times. -/
theorem throttle_rate_bound (limit start T : Nat) (events : List (Nat × α))
    (hlim : 1 ≤ limit)
    (hwin : ∀ p ∈ events, start ≤ p.1 ∧ p.1 < start + T) :
    (throttleRun limit none events).length ≤ (T + limit - 1) / limit := by
  cases events with
  | nil => simp [throttleRun]
  | cons q rest =>
    obtain ⟨t, a⟩ := q
    obtain ⟨hts, htw⟩ := hwin (t, a) (by simp)
    rw [throttleRun_cons_none]
    have hlen := throttleRun_len limit (start + T) rest (t + limit)
      (by omega) (fun p hp => (hwin p (List.mem_cons_of_mem _ hp)).2)
    rw [Nat.le_div_iff_mul_le hlim]
    simp only [List.length_cons, Nat.add_mul, Nat.one_mul]
    omega

/-- C3 witness: `limit = 10`, invocations at 0, 3, 6, 9 ms inside the
window `[0, 12)`: one execution, within the bound `⌈12/10⌉ = 2`. -/
theorem throttle_rate_bound_witness :
    (throttleRun 10 none [(0, 1), (3, 2), (6, 3), (9, (4 : Nat))]).length ≤
      (12 + 10 - 1) / 10 :=
  throttle_rate_bound 10 0 12 [(0, 1), (3, 2), (6, 3), (9, (4 : Nat))]
    (by decide) (by decide)

/-- C7: the cooldown-flag pattern of `throttle`: an invocation arriving
with the flag clear (no cooldown, or a reset due at or before the
invocation) executes `func` immediately with that invocation's
arguments and sets the flag until `t + limit`; an invocation arriving
while the flag is set is dropped entirely — the run's executions are
exactly those of the remaining invocations, so `func` never runs for
it, then or later. -/
theorem throttle_cooldown_flag (limit r t : Nat) (a : α) (rest : List (Nat × α)) :
    (throttleRun limit none ((t, a) :: rest) =
      (t, a) :: throttleRun limit (some (t + limit)) rest) ∧
    (r ≤ t → throttleRun limit (some r) ((t, a) :: rest) =
      (t, a) :: throttleRun limit (some (t + limit)) rest) ∧
    (t < r → throttleRun limit (some r) ((t, a) :: rest) =
      throttleRun limit (some r) rest) :=
  ⟨throttleRun_cons_none limit t a rest,
    fun h => throttleRun_cons_clear limit r t a rest h,
    fun h => throttleRun_cons_cooldown limit r t a rest h⟩

/-- C7 witness: with `limit = 10` and a cooldown resetting at 5 ms, an
invocation at 2 ms is dropped entirely. -/
theorem throttle_cooldown_flag_witness :
    throttleRun 10 (some 5) [(2, 1), (7, (2 : Nat))] =
      throttleRun 10 (some 5) [(7, (2 : Nat))] :=
  (throttle_cooldown_flag 10 5 2 (1 : Nat) [(7, 2)]).2.2 (by decide)

/-! ## memoize (src/unnamed/part_005)

```js
function memoize(fn) {
  const cache = {};
  return function(arg) {
    if (cache[arg]) {
      console.log('From cache:', arg);
      return cache[arg];
    }
    console.log('Computing:', arg);
    const result = fn(arg);
    cache[arg] = result;
    return result;
  };
}
```

`fn` is a numeric unary function (the repository's example squares a
number), so arguments are `Nat` keys and cached values are `Int`. The
object `cache` is an association list where an assignment shadows any
earlier binding of the same key; `cache[arg]` is property lookup; the
guard `if (cache[arg])` tests JavaScript truthiness of the value, and a
number is falsy exactly when it is zero (or NaN, not representable
here). -/

/-- Property access `cache[k]`: the most recent binding of `k`, or
`none` (JavaScript `undefined`) when `k` was never assigned. -/
def cacheLookup (c : List (Nat × Int)) (k : Nat) : Option Int :=
  match c with
  | [] => none
  | (k2, v) :: rest => if k = k2 then some v else cacheLookup rest k

/-- One call of the memoized function on `arg` with the current
`cache`: returns the call's result, the cache afterwards, and whether
`fn` was invoked. The cached value is returned only when it is truthy
(`if (cache[arg])`); otherwise `fn` runs and `cache[arg] = result`. -/
def memoApply (fn : Nat → Int) (cache : List (Nat × Int)) (arg : Nat) :
    Int × List (Nat × Int) × Bool :=
  match cacheLookup cache arg with
  | some v => if v ≠ 0 then (v, cache, false)
              else (fn arg, (arg, fn arg) :: cache, true)
  | none => (fn arg, (arg, fn arg) :: cache, true)

/-- Cache after a sequence of calls of the memoized function. -/
def memoCache (fn : Nat → Int) : List (Nat × Int) → List Nat → List (Nat × Int)
  | c, [] => c
  | c, a :: rest => memoCache fn (memoApply fn c a).2.1 rest

/-- Per-call `fn`-invocation flags over a sequence of calls. -/
def memoFlags (fn : Nat → Int) : List (Nat × Int) → List Nat → List Bool
  | _, [] => []
  | c, a :: rest => (memoApply fn c a).2.2 :: memoFlags fn (memoApply fn c a).2.1 rest

lemma memoApply_cache (fn : Nat → Int) (cache : List (Nat × Int)) (arg : Nat) :
    (memoApply fn cache arg).2.1 = cache ∨
    (memoApply fn cache arg).2.1 = (arg, fn arg) :: cache := by
  unfold memoApply
  cases cacheLookup cache arg with
  | none => right; rfl
  | some v =>
    by_cases hv : v ≠ 0
    · left; simp [hv]
    · right; simp [hv]

/-- Every value the cache ever holds for a key is `fn` of that key. -/
lemma memoCache_consistent (fn : Nat → Int) :
    ∀ (args : List Nat) (cache : List (Nat × Int)),
      (∀ k v, cacheLookup cache k = some v → v = fn k) →
      ∀ k v, cacheLookup (memoCache fn cache args) k = some v → v = fn k := by
  intro args
  induction args with
  | nil => intro cache hc; exact hc
  | cons a rest ih =>
    intro cache hc
    refine ih (memoApply fn cache a).2.1 ?_
    intro k v hkv
    rcases memoApply_cache fn cache a with h | h
    · exact hc k v (h ▸ hkv)
    · rw [h] at hkv
      unfold cacheLookup at hkv
      by_cases hk : k = a
      · rw [if_pos hk] at hkv
        subst hk
        exact (Option.some_injective _ hkv).symm
      · rw [if_neg hk] at hkv
        exact hc k v hkv

/-- C4 counterexample: take the repository's own example
`fn = (num) => num * num` and the argument `0`. After the first call
the result `0` is stored for `0` (`cache[0] = some 0`), yet the second
call with the same argument invokes `fn` again (both calls carry the
invoked flag `true`), because `if (cache[arg])` tests value truthiness
and the stored `0` is falsy. This refutes the claim that every later
call returns the stored result without invoking `fn` again. -/
theorem memoize_falsy_recomputes :
    cacheLookup (memoCache (fun n : Nat => (n : Int) * n) [] [0]) 0 = some 0 ∧
    memoFlags (fun n : Nat => (n : Int) * n) [] [0, 0] = [true, true] := by
  constructor
  · rfl
  · rfl

/-- C4 (amended): the cache never evicts — a key once present stays
present after any further call — and a later call whose stored result
is truthy (non-zero) returns that stored result without invoking `fn`
and leaves the cache unchanged. (For a falsy stored result the
truthiness guard misses and `fn` is re-invoked, as the counterexample
shows.) -/
theorem memoize_no_eviction (fn : Nat → Int) (cache : List (Nat × Int)) (arg : Nat) :
    (∀ v, cacheLookup cache arg = some v → v ≠ 0 →
      memoApply fn cache arg = (v, cache, false)) ∧
    (∀ k, (cacheLookup cache k).isSome →
      (cacheLookup (memoApply fn cache arg).2.1 k).isSome) := by
  constructor
  · intro v hv hv0
    unfold memoApply
    rw [hv]
    simp [hv0]
  · intro k hk
    rcases memoApply_cache fn cache arg with h | h
    · rwa [h]
    · rw [h]
      unfold cacheLookup
      by_cases hka : k = arg
      · rw [if_pos hka]; rfl
      · rwa [if_neg hka]

/-- C4 amended-claim witness: with a unit cache `[(3, 9)]` for the
squaring function, a repeat call on `3` returns the stored `9` without
invoking `fn`, and the key `3` is still present afterwards. -/
theorem memoize_no_eviction_witness :
    memoApply (fun n : Nat => (n : Int) * n) [(3, 9)] 3 = (9, [(3, 9)], false) ∧
    (cacheLookup (memoApply (fun n : Nat => (n : Int) * n) [(3, 9)] 3).2.1 3).isSome := by
  have h := memoize_no_eviction (fun n : Nat => (n : Int) * n) [(3, 9)] 3
  exact ⟨h.1 9 (by rfl) (by decide), h.2 3 (by rfl)⟩

/-- C8: memoization is transparent: after any sequence of prior calls,
calling the memoized function on `x` returns exactly `fn x`. -/
theorem memoize_transparent (fn : Nat → Int) (prior : List Nat) (x : Nat) :
    (memoApply fn (memoCache fn [] prior) x).1 = fn x := by
  have hcons := memoCache_consistent fn prior []
    (by intro k v h; simp [cacheLookup] at h)
  unfold memoApply
  cases hx : cacheLookup (memoCache fn [] prior) x with
  | none => rfl
  | some v =>
    have hv := hcons x v hx
    dsimp only
    by_cases hv0 : v ≠ 0
    · rw [if_pos hv0]
      exact hv
    · rw [if_neg hv0]

/-! ## once (src/unnamed/part_005)

```js
function once(fn) {
  let hasRun = false;
  let result;
  return function(...args) {
    if (!hasRun) {
      hasRun = true;
      result = fn(...args);
      return result;
    }
    return result;
  };
}
```

The closure state `hasRun`/`result` is `Option β`: `none` before the
first call, `some r` once `fn` has produced `r`. Each call yields the
returned value and whether `fn` was invoked. -/

/-- Run of the `once` wrapper over a list of calls (each call's
argument pack is one value of `α`), from state `s`; yields per call the
returned value and whether `fn` was invoked. -/
def onceRun (fn : α → β) : Option β → List α → List (β × Bool)
  | _, [] => []
  | none, a :: rest => (fn a, true) :: onceRun fn (some (fn a)) rest
  | some r, _ :: rest => (r, false) :: onceRun fn (some r) rest

lemma onceRun_saturated (fn : α → β) (r : β) :
    ∀ calls : List α, onceRun fn (some r) calls = calls.map (fun _ => (r, false)) := by
  intro calls
  induction calls with
  | nil => rfl
  | cons a rest ih => simp [onceRun, ih]

/-- C9: over any sequence of calls of the wrapper returned by
`once(fn)`, `fn` is invoked exactly once, by the first call with its
arguments; every later call returns that same first result without
invoking `fn`, its own arguments ignored. -/
theorem once_runs_once (fn : α → β) (c : α) (rest : List α) :
    onceRun fn none (c :: rest) =
      (fn c, true) :: rest.map (fun _ => (fn c, false)) := by
  simp [onceRun, onceRun_saturated]

/-! ## debounceWithCancel (src/javascript/debouncing_throttling/implementation.js)

```js
function debounceWithCancel(func, delay) {
  let timeoutId;
  const debounced = function(...args) {
    clearTimeout(timeoutId);
    timeoutId = setTimeout(() => { func.apply(this, args); }, delay);
  };
  debounced.cancel = function() {
    clearTimeout(timeoutId);
  };
  return debounced;
}
```

Same single-`timeoutId` state as `debounce`, with a second entry point:
`cancel()` clears the pending timer (scheduling nothing). Events are
invocations of the debounced function or calls of `cancel`, each at a
time. -/

/-- An event for the cancellable debounced function: an invocation with
arguments, or a call of its `cancel()` method. -/
inductive DEvent (α : Type) where
  | invoke (t : Nat) (args : α) : DEvent α
  | cancel (t : Nat) : DEvent α
  deriving DecidableEq, Repr

/-- The time at which an event occurs. -/
def DEvent.time : DEvent α → Nat
  | DEvent.invoke t _ => t
  | DEvent.cancel t => t

/-- Whether an event is an invocation of the debounced function. -/
def DEvent.isInvoke : DEvent α → Bool
  | DEvent.invoke _ _ => true
  | DEvent.cancel _ => false

/-- Effect of an event on the `timeoutId` state: an invocation clears
any pending timer and schedules a fresh one `delay` ms later; `cancel`
clears any pending timer and schedules nothing. -/
def dwcApply (delay : Nat) (_s : Option (Nat × α)) : DEvent α → Option (Nat × α)
  | DEvent.invoke t args => some (t + delay, args)
  | DEvent.cancel _ => none

/-- Executions of `func` produced over a time-ordered list of events,
starting from timer state `s`: a pending timer due at or before the
current event's time fires first, and a timer still pending after the
last event fires once time passes. -/
def dwcRun (delay : Nat) : Option (Nat × α) → List (DEvent α) → List (Nat × α)
  | some p, [] => [p]
  | none, [] => []
  | some p, ev :: rest =>
    if p.1 ≤ ev.time then p :: dwcRun delay (dwcApply delay none ev) rest
    else dwcRun delay (dwcApply delay (some p) ev) rest
  | none, ev :: rest => dwcRun delay (dwcApply delay none ev) rest

lemma dwcRun_none_no_invoke (delay : Nat) :
    ∀ events : List (DEvent α), (∀ ev ∈ events, ev.isInvoke = false) →
      dwcRun delay none events = [] := by
  intro events
  induction events with
  | nil => intro _; rfl
  | cons ev rest ih =>
    intro h
    cases ev with
    | invoke t args =>
      simpa [DEvent.isInvoke] using h (DEvent.invoke t args) (by simp)
    | cancel t =>
      show dwcRun delay (dwcApply delay none (DEvent.cancel t)) rest = []
      exact ih (fun e he => h e (List.mem_cons_of_mem _ he))

/-- C10: `cancel()` discards the pending execution. If `cancel` is
called at time `t` while the pending execution (if any) is not yet due,
then — as long as the debounced function is not invoked again (all
later events are further `cancel` calls) — `func` never executes: the
run produces no executions at all. In particular `cancel()` itself
never invokes `func`. -/
theorem debounce_cancel_discards (delay : Nat) (s : Option (Nat × α)) (t : Nat)
    (rest : List (DEvent α))
    (hpend : ∀ tf a, s = some (tf, a) → t < tf)
    (hnoinv : ∀ ev ∈ rest, DEvent.isInvoke ev = false) :
    dwcRun delay s (DEvent.cancel t :: rest) = [] := by
  cases s with
  | none =>
    show dwcRun delay (dwcApply delay none (DEvent.cancel t)) rest = []
    exact dwcRun_none_no_invoke delay rest hnoinv
  | some p =>
    obtain ⟨tf, a⟩ := p
    have htf : t < tf := hpend tf a rfl
    show (if tf ≤ (DEvent.cancel t : DEvent α).time then _ else _) = _
    rw [if_neg (by simpa [DEvent.time] using Nat.not_le.mpr htf)]
    exact dwcRun_none_no_invoke delay rest hnoinv

/-- C10 witness: a pending execution at 10 ms cancelled at 4 ms, with a
further `cancel` at 20 ms: `func` never executes. -/
theorem debounce_cancel_discards_witness :
    dwcRun 10 (some (10, (5 : Nat))) [DEvent.cancel 4, DEvent.cancel 20] = [] :=
  debounce_cancel_discards 10 (some (10, (5 : Nat))) 4 [DEvent.cancel 20]
    (by intro tf a h; simp at h; omega) (by decide)

end WebDevHandbook
